import Mathlib

/-!
# Verification of the ads.txt validator (`src/validator.py`)

Shallow embedding of the validator's text normalization, SQLite-backed record
store, ingestion, live fetch, and reconciliation ("Validate ads.txt" handler),
together with proofs of the specification claims.

Text is modelled as lists of Unicode code points (`List Nat`); the whitespace
set is the ASCII whitespace recognized by Python's `str.strip` / `str.split`.
-/

/-- A text string, modelled as the list of its characters' code points
(each character is a `Nat`). -/
abbrev Str := List Nat

/-- Convert a Lean string literal into the `Str` model (for concrete tests). -/
def strLit (s : String) : Str := s.toList.map Char.toNat

/-- ASCII whitespace, the set stripped/split by Python's `str.strip`/`str.split`:
space, tab, newline, carriage return, vertical tab, form feed. -/
def isWs (c : Nat) : Bool :=
  decide (c = 32 ∨ c = 9 ∨ c = 10 ∨ c = 13 ∨ c = 11 ∨ c = 12)

/-- Python `str.lower` on one character (ASCII letters). -/
def lowerCh (c : Nat) : Nat := if 65 ≤ c ∧ c ≤ 90 then c + 32 else c

/-- Python `str.lower`. -/
def lowerStr (s : Str) : Str := s.map lowerCh

/-- Python `str.strip`: drop leading and trailing whitespace. -/
def stripStr (s : Str) : Str :=
  ((s.dropWhile isWs).reverse.dropWhile isWs).reverse

/-- The spec's `storageNormalize`: trim surrounding whitespace, lowercase.
This is the normal form applied by the validator before persisting any
line or domain key (`ln.strip().lower()` at each storage site). -/
def storageNorm (s : Str) : Str := lowerStr (stripStr s)

/-- Concatenate a list of lists (`"".join(...)` and flattening loops). -/
def joinAll {α : Type} (l : List (List α)) : List α :=
  l.foldr (fun a b => a ++ b) []

/-- Python `str.split()` worker: `cur` is the (reversed) word being read;
whitespace closes the current word, other characters extend it, and no empty
words are emitted. -/
def splitWsGo (cur : Str) : Str → List Str
  | [] => if cur.isEmpty then [] else [cur.reverse]
  | c :: rest =>
    if isWs c then
      if cur.isEmpty then splitWsGo [] rest else cur.reverse :: splitWsGo [] rest
    else splitWsGo (c :: cur) rest

/-- Python `str.split()` with no separator: split on runs of whitespace,
returning the (non-empty) whitespace-free words. -/
def splitWs (s : Str) : List Str := splitWsGo [] s

/-- Model of `normalize_ads_line` from `src/validator.py`:
`"".join(line.split()).lower()` — the compare-level normalizer. -/
def normalize_ads_line (line : Str) : Str :=
  lowerStr (joinAll (splitWs line))

/-- Python `text.split("\n")`: split on newline characters, keeping empty
segments (so the result is never empty). -/
def splitNl : Str → List Str
  | [] => [[]]
  | c :: rest =>
    if c = 10 then [] :: splitNl rest
    else
      match splitNl rest with
      | [] => [[c]]
      | w :: ws => (c :: w) :: ws

/-- Collapse each `\r\n` pair into a single `\n` (so that `\n`, `\r`, and
`\r\n` can all be treated as one-character line boundaries). -/
def normNewlines : Str → Str
  | [] => []
  | 13 :: 10 :: rest => 10 :: normNewlines rest
  | c :: rest => c :: normNewlines rest

/-- Python `str.splitlines` worker on newline-normalized text: `\n` and `\r`
close the current line; no trailing empty line is emitted. -/
def splitlinesGo (cur : Str) : Str → List Str
  | [] => if cur.isEmpty then [] else [cur.reverse]
  | c :: rest =>
    if c = 10 || c = 13 then cur.reverse :: splitlinesGo [] rest
    else splitlinesGo (c :: cur) rest

/-- Python `r.text.splitlines()`, recognizing `\n`, `\r`, and `\r\n` as line
boundaries. -/
def splitlinesStr (s : Str) : List Str := splitlinesGo [] (normNewlines s)

/-- Python `line.startswith("#")`. -/
def startsHash (s : Str) : Bool :=
  match s with
  | c :: _ => c == 35
  | [] => false

/-- Worker for `list(dict.fromkeys(lines))`: keep each element whose text was not
already seen, scanning left to right. -/
def dedupFirstGo (seen : List Str) : List Str → List Str
  | [] => []
  | x :: xs => if x ∈ seen then dedupFirstGo seen xs else x :: dedupFirstGo (x :: seen) xs

/-- Model of `list(dict.fromkeys(lines))`: de-duplicate by exact text, keeping the
first occurrence of each element, preserving order. -/
def dedupFirst (l : List Str) : List Str := dedupFirstGo [] l

/-- Insert into a sorted list (worker for the model of Python `sorted` /
SQLite `ORDER BY`). -/
def insertSorted {α : Type} (le : α → α → Bool) (x : α) : List α → List α
  | [] => [x]
  | y :: ys => if le x y then x :: y :: ys else y :: insertSorted le x ys

/-- Stable insertion sort, modelling Python `sorted` and SQLite `ORDER BY`. -/
def sortBy {α : Type} (le : α → α → Bool) (l : List α) : List α :=
  l.foldr (insertSorted le) []

/-- Lexicographic (code-point) order on strings, as used by Python string
comparison and SQLite's binary text collation. -/
def lexLe : Str → Str → Bool
  | [], _ => true
  | _ :: _, [] => false
  | a :: as, b :: bs => if a < b then true else if b < a then false else lexLe as bs

/-- Python `sorted` on strings. -/
def sortStrs (l : List Str) : List Str := sortBy lexLe l

/-!
## Record store

The SQLite database of `src/validator.py`: tables `domains`, `partners`,
`partner_lines`, `master_lines`.  Lists are kept in rowid (insertion) order;
`nextPartnerId` models the `AUTOINCREMENT` counter of `partners.id`.
-/

/-- The four tables of `adsdata.db`.  `domains` rows are `(domain, account_manager)`;
`partners` rows are `(id, name, integration_type)`; `partner_lines` rows are
`(partner_id, line)` in rowid order; `master_lines` holds lines in rowid order. -/
structure DBState where
  domains : List (Str × Str)
  partners : List (Nat × Str × Str)
  partnerLines : List (Nat × Str)
  masterLines : List Str
  nextPartnerId : Nat
deriving Repr, DecidableEq

/-- A freshly created database: empty tables, AUTOINCREMENT starting at 1. -/
def emptyDB : DBState :=
  { domains := [], partners := [], partnerLines := [], masterLines := [], nextPartnerId := 1 }

/-- Model of `SELECT id FROM partners WHERE name = ?` followed by `fetchone()`. -/
def findPartnerId (st : DBState) (name : Str) : Option Nat :=
  (st.partners.find? (fun p => p.2.1 == name)).map (fun p => p.1)

/-- Model of `INSERT OR IGNORE INTO master_lines(line) VALUES (?)`. -/
def insertMasterIgnore (st : DBState) (ln : Str) : DBState :=
  if ln ∈ st.masterLines then st
  else { st with masterLines := st.masterLines ++ [ln] }

/-- Model of `SELECT line FROM partner_lines WHERE partner_id = ?`: the stored
line texts of one partner in insertion (rowid) order, duplicates included. -/
def partnerStoredLines (st : DBState) (pid : Nat) : List Str :=
  (st.partnerLines.filter (fun pl => pl.1 == pid)).map (fun pl => pl.2)

/-- Model of `get_partner_lines`: all lines of one partner in insertion order, with
exact-text duplicates removed keeping first occurrences. -/
def get_partner_lines (st : DBState) (pid : Nat) : List Str :=
  dedupFirst (partnerStoredLines st pid)

/-- Model of `get_partner_first_line`: earliest-inserted line of a partner, if any. -/
def get_partner_first_line (st : DBState) (pid : Nat) : Option Str :=
  ((st.partnerLines.filter (fun pl => pl.1 == pid)).head?).map (fun pl => pl.2)

/-- Model of `get_master_lines`: master lines in rowid order, de-duplicated by exact
text keeping first occurrences. -/
def get_master_lines (st : DBState) : List Str :=
  dedupFirst st.masterLines

/-- Model of `get_master_first_line`. -/
def get_master_first_line (st : DBState) : Option Str :=
  st.masterLines.head?

/-- Model of `add_domain(domain, account_manager)`: normalize the key
(`domain.lower().strip()`), no-op when empty, otherwise
`INSERT OR IGNORE` then unconditional `UPDATE` of the account manager. -/
def add_domain (st : DBState) (domain accountManager : Str) : DBState :=
  let d := stripStr (lowerStr domain)
  let am := stripStr accountManager
  if d = [] then st
  else
    let st1 :=
      if st.domains.any (fun r => r.1 == d) then st
      else { st with domains := st.domains ++ [(d, am)] }
    { st1 with domains := st1.domains.map (fun r => if r.1 == d then (r.1, am) else r) }

/-- Model of `add_partner(name, integration_type, lines)`: strip the name and type,
clean the lines (`ln.strip().lower()`, dropping blank lines), no-op when the
name or the cleaned lines are empty; otherwise `INSERT OR IGNORE` the partner
row, look up its id, and append each cleaned line to `partner_lines` and
(`INSERT OR IGNORE`) to `master_lines`. -/
def add_partner (st : DBState) (name integrationType : Str) (lines : List Str) : DBState :=
  let n := stripStr name
  let it := stripStr integrationType
  let clean := (lines.filter (fun l => !(stripStr l).isEmpty)).map (fun l => lowerStr (stripStr l))
  if n = [] ∨ clean = [] then st
  else
    let st1 :=
      if st.partners.any (fun p => p.2.1 == n) then st
      else { st with partners := st.partners ++ [(st.nextPartnerId, n, it)],
                     nextPartnerId := st.nextPartnerId + 1 }
    match findPartnerId st1 n with
    | none => st1
    | some pid =>
      clean.foldl
        (fun s ln => insertMasterIgnore { s with partnerLines := s.partnerLines ++ [(pid, ln)] } ln)
        st1

/-- One iteration of the `delete_partners` loop: look the name up, and if it
matches a partner delete its `partner_lines` rows and then its partner row. -/
def deletePartnerStep (s : DBState) (name : Str) : DBState :=
  match findPartnerId s name with
  | none => s
  | some pid =>
    { s with partnerLines := s.partnerLines.filter (fun pl => !(pl.1 == pid)),
             partners := s.partners.filter (fun p => !(p.1 == pid)) }

/-- Model of `delete_partners(names)`: for each name in order, cascade-delete the
matching partner (lines first, then the row); missing names are skipped. -/
def delete_partners (st : DBState) (names : List Str) : DBState :=
  if names = [] then st
  else names.foldl deletePartnerStep st

/-- Model of `replace_master_lines(new_lines)`: clear `master_lines`, then
`INSERT OR IGNORE` each given line. -/
def replace_master_lines (st : DBState) (newLines : List Str) : DBState :=
  newLines.foldl insertMasterIgnore { st with masterLines := [] }

/-- Model of `rename_partner(old_name, new_name)`: returns `false` (store untouched)
when the stripped new name is empty or an exact-name collision exists;
otherwise updates every partner row named `old_name` and returns `true`. -/
def rename_partner (st : DBState) (oldName newName : Str) : Bool × DBState :=
  let nc := stripStr newName
  if nc = [] then (false, st)
  else if st.partners.any (fun p => p.2.1 == nc) then (false, st)
  else
    let renamed := st.partners.map (fun p => if p.2.1 == oldName then (p.1, nc, p.2.2) else p)
    (true, { st with partners := renamed })

/-- Model of `update_partner_integration(name, integration_type)`. -/
def update_partner_integration (st : DBState) (name integrationType : Str) : DBState :=
  let updated := st.partners.map
    (fun p => if p.2.1 == name then (p.1, p.2.1, stripStr integrationType) else p)
  { st with partners := updated }

/-- Model of `append_partner_lines(name, lines)`. -/
def append_partner_lines (st : DBState) (name : Str) (lines : List Str) : DBState :=
  let clean := (lines.filter (fun l => !(stripStr l).isEmpty)).map (fun l => lowerStr (stripStr l))
  if clean = [] then st
  else
    match findPartnerId st name with
    | none => st
    | some pid =>
      clean.foldl
        (fun s ln => insertMasterIgnore { s with partnerLines := s.partnerLines ++ [(pid, ln)] } ln)
        st

/-- Model of `delete_partner_lines_by_values(name, lines)`: delete every line row of the
named partner whose exact text occurs in `lines`; no-op when `lines` is empty
or the partner does not exist. -/
def delete_partner_lines_by_values (st : DBState) (name : Str) (lines : List Str) : DBState :=
  if lines = [] then st
  else
    match findPartnerId st name with
    | none => st
    | some pid =>
      let kept := st.partnerLines.filter (fun pl => !(pl.1 == pid && lines.contains pl.2))
      { st with partnerLines := kept }

/-!
## Catalog ingestion (`init_db_from_excel`)

A sheet is modelled by its name, its column count, and the four columns the
code reads (`iloc[:, 0]`, `[:, 3]`, `[:, 4]`, `[:, 6]`); `none` cells are
pandas NaN.  The workbook is the list of sheets in order.  Fatal aborts
(`st.stop()` on a missing/short master sheet) are modelled as `none`.
-/

/-- One worksheet: name, column count, and the columns the ingestor reads. -/
structure Sheet where
  name : Str
  ncols : Nat
  col0 : List (Option Str)
  col3 : List (Option Str)
  col4 : List (Option Str)
  col6 : List (Option Str)
deriving Repr, DecidableEq

/-- The domain-population loop of `init_db_from_excel`: zip column A with
column D, skip NaN domains, storage-normalize, skip empties, and
`INSERT OR IGNORE` each `(domain, account_manager)` pair. -/
def ingestDomainRow (s : DBState) (cell : Option Str × Option Str) : DBState :=
  match cell.1 with
  | none => s
  | some dv =>
    let domain := lowerStr (stripStr dv)
    let am := match cell.2 with
              | none => []
              | some a => stripStr a
    if domain = [] then s
    else if s.domains.any (fun r => r.1 == domain) then s
    else { s with domains := s.domains ++ [(domain, am)] }

/-- Split one master-column cell on newlines, normalize each piece, and
`INSERT OR IGNORE` the non-empty ones into `master_lines`. -/
def ingestMasterCell (s : DBState) (text : Str) : DBState :=
  (splitNl text).foldl
    (fun s2 line =>
      let ln := lowerStr (stripStr line)
      if ln = [] then s2 else insertMasterIgnore s2 ln)
    s

/-- Append one line-column cell of a partner sheet: each newline-separated,
normalized, non-empty piece becomes a `partner_lines` row for `pid` and is
also `INSERT OR IGNORE`d into `master_lines`. -/
def ingestPartnerCell (pid : Nat) (s : DBState) (text : Str) : DBState :=
  (splitNl text).foldl
    (fun s2 line =>
      let ln := lowerStr (stripStr line)
      if ln = [] then s2
      else insertMasterIgnore { s2 with partnerLines := s2.partnerLines ++ [(pid, ln)] } ln)
    s

/-- Ingest one partner sheet: skipped when it has fewer than 7 columns;
otherwise the integration type is the first non-NaN cell of column E
(stripped, else empty), the partner is created with `INSERT OR IGNORE`
under the stripped sheet name, and every non-NaN cell of column G is
ingested as partner lines. -/
def ingestPartnerSheet (s : DBState) (sh : Sheet) : DBState :=
  if sh.ncols < 7 then s
  else
    let integration :=
      match sh.col4.filterMap id with
      | [] => []
      | v :: _ => stripStr v
    let pname := stripStr sh.name
    let s1 :=
      if s.partners.any (fun p => p.2.1 == pname) then s
      else { s with partners := s.partners ++ [(s.nextPartnerId, pname, integration)],
                    nextPartnerId := s.nextPartnerId + 1 }
    match findPartnerId s1 pname with
    | none => s1
    | some pid => (sh.col6.filterMap id).foldl (ingestPartnerCell pid) s1

/-- Model of `init_db_from_excel` (data phase, after `CREATE TABLE IF NOT EXISTS`):
a no-op returning the store unchanged when `domains` already has rows;
`none` (fatal `st.stop()`) when the workbook has fewer than two sheets or the
master sheet has fewer than 7 columns; otherwise populate domains and master
lines from sheet 0, then ingest every sheet strictly between the first and
the last. -/
def init_db_from_excel (st : DBState) (xls : List Sheet) : Option DBState :=
  if st.domains.length > 0 then some st
  else if xls.length < 2 then none
  else
    match xls with
    | [] => none
    | master :: restSheets =>
      if master.ncols < 7 then none
      else
        let st1 := (master.col0.zip master.col3).foldl ingestDomainRow st
        let st2 := (master.col6.filterMap id).foldl ingestMasterCell st1
        let st3 := restSheets.dropLast.foldl ingestPartnerSheet st2
        some st3

/-!
## Live fetcher (`fetch_ads_txt`)

The HTTP interaction is abstracted as a `FetchOutcome`: either an exception
(transport error / timeout raised inside `requests.get`) or a response with a
status code and a body.
-/

/-- Outcome of `requests.get` for one domain. -/
inductive FetchOutcome where
  | exn : FetchOutcome
  | response (status : Nat) (body : Str) : FetchOutcome
deriving Repr, DecidableEq

/-- Model of `fetch_ads_txt`: empty list on exception or non-200 status; otherwise the
body's lines, stripped, with blank and `#`-comment lines dropped, lowercased. -/
def fetch_ads_txt (outcome : FetchOutcome) : List Str :=
  match outcome with
  | .exn => []
  | .response status body =>
    if status ≠ 200 then []
    else
      (splitlinesStr body).filterMap (fun raw =>
        let line := stripStr raw
        if line.isEmpty || startsHash line then none
        else some (lowerStr line))

/-!
## Reconciliation engine (the "Validate ads.txt" handler)

The handler's pure core, parameterized by the store state at validation time,
the caller's partner selection, the integration-type filter, the resolved
target domains, and the per-domain live lines (`domain_live_lines`).
-/

/-- The `"(All)"` sentinel offered by the partner and filter selectors. -/
def allSentinel : Str := strLit "(All)"

/-- The `"MASTER (All)"` provider label of master-fallback rows. -/
def masterLabel : Str := strLit "MASTER (All)"

/-- The `"MASTER"` integration-type label of master-fallback rows. -/
def masterTypeLabel : Str := strLit "MASTER"

/-- One emitted summary row. -/
structure Row where
  domain : Str
  accountManager : Str
  demandPartner : Str
  integrationType : Str
  presentCount : Nat
  missingCount : Nat
  firstLine : Str
deriving Repr, DecidableEq

/-- The `partners` rows sorted by name (`SELECT ... ORDER BY name`). -/
def sortPartnerRows (st : DBState) : List (Nat × Str × Str) :=
  sortBy (fun p q => lexLe p.2.1 q.2.1) st.partners

/-- Model of `partner_name_map.get(pname, ...)`: the dict maps each name to the
`(id, integration_type)` of the last row bearing it (later entries of the
name-ordered row list overwrite earlier ones). -/
def partner_name_map_find (st : DBState) (pname : Str) : Option (Nat × Str) :=
  (sortPartnerRows st).foldl
    (fun acc p => if p.2.1 == pname then some (p.1, p.2.2) else acc) none

/-- Model of `all_partner_names`: the sorted keys of `partner_name_map`. -/
def all_partner_names (st : DBState) : List Str :=
  sortStrs (dedupFirst ((sortPartnerRows st).map (fun p => p.2.1)))

/-- Model of `domain_am_map.get(dom, "")`. -/
def domain_am_map_get (st : DBState) (d : Str) : Str :=
  match st.domains.find? (fun r => r.1 == d) with
  | none => []
  | some r => r.2

/-- Model of `summarize_first_line`: `"N/A"` for a missing (or falsy) first line, else a
positive/negative mark depending on compare-normalized membership in the live
lines.  The three UI strings are modelled as `"N/A"`, `"OK"`, `"NO"`. -/
def summarize_first_line (firstLine : Option Str) (liveLines : List Str) : Str :=
  match firstLine with
  | none => strLit "N/A"
  | some fl =>
    if fl = [] then strLit "N/A"
    else if (liveLines.map normalize_ads_line).contains (normalize_ads_line fl) then strLit "OK"
    else strLit "NO"

/-- Model of `[ln for ln in expected if normalize_ads_line(ln) in live_norms]`. -/
def computePresent (expected liveLines : List Str) : List Str :=
  expected.filter (fun l => (liveLines.map normalize_ads_line).contains (normalize_ads_line l))

/-- Model of `[ln for ln in expected if normalize_ads_line(ln) not in live_norms]`. -/
def computeMissing (expected liveLines : List Str) : List Str :=
  expected.filter (fun l => !((liveLines.map normalize_ads_line).contains (normalize_ads_line l)))

/-- Apply the integration-type filter: keep a name when the filter is the
`"(All)"` sentinel, or when `integration_filter.lower() == (itype or "").lower()`
for the name's mapped integration type (missing names map to the empty type). -/
def integrationFilterNames (st : DBState) (filt : Str) (names : List Str) : List Str :=
  if filt == allSentinel then names
  else
    names.filter (fun pname =>
      let itype :=
        match partner_name_map_find st pname with
        | none => []
        | some pi => pi.2
      lowerStr filt == lowerStr itype)

/-- Resolve the chosen partner names: expand to every known partner name when
the selection contains `"(All)"` or is empty, else keep the selected names
that are known; then apply the integration-type filter. -/
def resolveChosenNames (st : DBState) (sel : List Str) (filt : Str) : List Str :=
  let allNames := all_partner_names st
  let base :=
    if sel.contains allSentinel || sel.isEmpty then allNames
    else sel.filter (fun p => allNames.contains p)
  integrationFilterNames st filt base

/-- Model of `chosen_partner_ids`: the mapped ids of the chosen names. -/
def resolveChosenIds (st : DBState) (sel : List Str) (filt : Str) : List Nat :=
  (resolveChosenNames st sel filt).filterMap
    (fun p => (partner_name_map_find st p).map (fun pi => pi.1))

/-- One partner-mode summary row for `(dom, pname)`. -/
def mkPartnerRow (st : DBState) (live : Str → List Str) (pname : Str) (pid : Nat)
    (itype : Str) (dom : Str) : Row :=
  { domain := dom,
    accountManager := domain_am_map_get st dom,
    demandPartner := pname,
    integrationType := itype,
    presentCount := (computePresent (get_partner_lines st pid) (live dom)).length,
    missingCount := (computeMissing (get_partner_lines st pid) (live dom)).length,
    firstLine := summarize_first_line (get_partner_first_line st pid) (live dom) }

/-- The rows contributed by one chosen partner name: none when the name is
unmapped (`pid is None`) or its de-duplicated line list is empty; otherwise
one row per target domain. -/
def partnerRowsFor (st : DBState) (doms : List Str) (live : Str → List Str)
    (pname : Str) : List Row :=
  match partner_name_map_find st pname with
  | none => []
  | some pi =>
    if (get_partner_lines st pi.1).isEmpty then []
    else doms.map (mkPartnerRow st live pname pi.1 pi.2)

/-- One master-fallback summary row for `dom`. -/
def mkMasterRow (st : DBState) (live : Str → List Str) (dom : Str) : Row :=
  { domain := dom,
    accountManager := domain_am_map_get st dom,
    demandPartner := masterLabel,
    integrationType := masterTypeLabel,
    presentCount := (computePresent (get_master_lines st) (live dom)).length,
    missingCount := (computeMissing (get_master_lines st) (live dom)).length,
    firstLine := summarize_first_line (get_master_first_line st) (live dom) }

/-- The summary rows emitted by the "Validate ads.txt" handler: when the
resolved chosen-partner id list is non-empty, one row per chosen partner with
a non-empty line list per domain; otherwise one master-fallback row per
domain. -/
def validateRows (st : DBState) (sel : List Str) (filt : Str) (doms : List Str)
    (live : Str → List Str) : List Row :=
  if (resolveChosenIds st sel filt).isEmpty then doms.map (mkMasterRow st live)
  else joinAll ((resolveChosenNames st sel filt).map (partnerRowsFor st doms live))

/-!
## Generic helper lemmas
-/

theorem foldl_preserve {α σ : Type} {P : σ → Prop} {f : σ → α → σ}
    (hstep : ∀ s a, P s → P (f s a)) :
    ∀ (l : List α) (s : σ), P s → P (l.foldl f s) := by
  intro l
  induction l with
  | nil => intro s hs; exact hs
  | cons a l ih => intro s hs; exact ih _ (hstep s a hs)

theorem length_filter_add_length_filter_not {α : Type} (l : List α) (p : α → Bool) :
    (l.filter p).length + (l.filter (fun a => !p a)).length = l.length := by
  induction l with
  | nil => rfl
  | cons a l ih =>
    by_cases h : p a <;> simp [List.filter_cons, h] <;> omega

theorem joinAll_cons {α : Type} (a : List α) (l : List (List α)) :
    joinAll (a :: l) = a ++ joinAll l := rfl

theorem mem_joinAll {α : Type} {x : α} :
    ∀ {l : List (List α)}, x ∈ joinAll l ↔ ∃ a ∈ l, x ∈ a := by
  intro l
  induction l with
  | nil => simp [joinAll]
  | cons a l ih => simp [joinAll_cons, List.mem_append, ih]

theorem filter_joinAll {α : Type} (p : α → Bool) :
    ∀ (l : List (List α)), (joinAll l).filter p = joinAll (l.map (fun a => a.filter p)) := by
  intro l
  induction l with
  | nil => rfl
  | cons a l ih => simp [joinAll_cons, List.filter_append, ih]

theorem map_id_of_mem {α : Type} {f : α → α} :
    ∀ {l : List α}, (∀ a ∈ l, f a = a) → l.map f = l := by
  intro l
  induction l with
  | nil => intro _; rfl
  | cons a l ih =>
    intro h
    simp only [List.map_cons, h a (by simp)]
    rw [ih (fun b hb => h b (by simp [hb]))]

/-- Position of the first occurrence of `x` (used to state first-occurrence
order of the de-duplicating accessors). -/
def idxOfStr (x : Str) : List Str → Nat
  | [] => 0
  | y :: ys => if x = y then 0 else idxOfStr x ys + 1

theorem idxOfStr_cons_self (x : Str) (l : List Str) : idxOfStr x (x :: l) = 0 := by
  simp [idxOfStr]

theorem idxOfStr_cons_ne {x y : Str} (l : List Str) (h : x ≠ y) :
    idxOfStr x (y :: l) = idxOfStr x l + 1 := by
  simp [idxOfStr, h]

/-!
## Properties of `dedupFirst`
-/

theorem mem_dedupFirstGo {x : Str} :
    ∀ (l seen : List Str), x ∈ dedupFirstGo seen l ↔ x ∈ l ∧ x ∉ seen := by
  intro l
  induction l with
  | nil => intro seen; simp [dedupFirstGo]
  | cons y ys ih =>
    intro seen
    by_cases hy : y ∈ seen
    · simp only [dedupFirstGo, if_pos hy, ih]
      constructor
      · rintro ⟨hx, hns⟩
        exact ⟨List.mem_cons_of_mem _ hx, hns⟩
      · rintro ⟨hx, hns⟩
        rcases List.mem_cons.mp hx with h | h
        · exact absurd (h ▸ hy) hns
        · exact ⟨h, hns⟩
    · simp only [dedupFirstGo, if_neg hy]
      constructor
      · intro hmem
        rcases List.mem_cons.mp hmem with h | h
        · exact ⟨h ▸ List.mem_cons_self y ys, h ▸ hy⟩
        · have h2 := (ih (y :: seen)).mp h
          exact ⟨List.mem_cons_of_mem _ h2.1,
                 fun hc => h2.2 (List.mem_cons_of_mem _ hc)⟩
      · rintro ⟨hx, hns⟩
        by_cases hxy : x = y
        · exact hxy ▸ List.mem_cons_self x _
        · rcases List.mem_cons.mp hx with h | h
          · exact absurd h hxy
          · refine List.mem_cons_of_mem _ ((ih (y :: seen)).mpr ⟨h, ?_⟩)
            intro hc
            rcases List.mem_cons.mp hc with h2 | h2
            · exact hxy h2
            · exact hns h2

theorem nodup_dedupFirstGo :
    ∀ (l seen : List Str), (dedupFirstGo seen l).Nodup := by
  intro l
  induction l with
  | nil => intro seen; simp [dedupFirstGo]
  | cons y ys ih =>
    intro seen
    by_cases hy : y ∈ seen
    · simpa [dedupFirstGo, if_pos hy] using ih seen
    · simp only [dedupFirstGo, if_neg hy]
      refine List.Nodup.cons ?_ (ih (y :: seen))
      intro hmem
      exact ((mem_dedupFirstGo ys (y :: seen)).mp hmem).2 (List.mem_cons_self y seen)

theorem pairwise_idxOf_dedupFirstGo :
    ∀ (l seen : List Str),
      (dedupFirstGo seen l).Pairwise (fun a b => idxOfStr a l < idxOfStr b l) := by
  intro l
  induction l with
  | nil => intro seen; simp [dedupFirstGo]
  | cons y ys ih =>
    intro seen
    have lift : ∀ seen' : List Str, y ∈ seen' →
        (dedupFirstGo seen' ys).Pairwise
          (fun a b => idxOfStr a (y :: ys) < idxOfStr b (y :: ys)) := by
      intro seen' hyseen
      refine (ih seen').imp_of_mem ?_
      intro a b ha hb hab
      have hay : a ≠ y := fun hc =>
        ((mem_dedupFirstGo ys seen').mp ha).2 (hc ▸ hyseen)
      have hby : b ≠ y := fun hc =>
        ((mem_dedupFirstGo ys seen').mp hb).2 (hc ▸ hyseen)
      rw [idxOfStr_cons_ne _ hay, idxOfStr_cons_ne _ hby]
      omega
    by_cases hy : y ∈ seen
    · simpa [dedupFirstGo, if_pos hy] using lift seen hy
    · simp only [dedupFirstGo, if_neg hy]
      refine List.Pairwise.cons ?_ (lift (y :: seen) (List.mem_cons_self y seen))
      intro b hb
      have hby : b ≠ y := fun hc =>
        ((mem_dedupFirstGo ys (y :: seen)).mp hb).2 (by simp [hc])
      rw [idxOfStr_cons_self, idxOfStr_cons_ne _ hby]
      omega

theorem mem_dedupFirst {x : Str} {l : List Str} : x ∈ dedupFirst l ↔ x ∈ l := by
  simp [dedupFirst, mem_dedupFirstGo]

theorem nodup_dedupFirst (l : List Str) : (dedupFirst l).Nodup :=
  nodup_dedupFirstGo l []

theorem pairwise_idxOf_dedupFirst (l : List Str) :
    (dedupFirst l).Pairwise (fun a b => idxOfStr a l < idxOfStr b l) :=
  pairwise_idxOf_dedupFirstGo l []

/-!
## The sort model is a permutation
-/

theorem insertSorted_perm {α : Type} (le : α → α → Bool) (x : α) :
    ∀ (l : List α), (insertSorted le x l).Perm (x :: l) := by
  intro l
  induction l with
  | nil => simp [insertSorted]
  | cons y ys ih =>
    by_cases h : le x y
    · simp [insertSorted, h]
    · simp only [insertSorted, if_neg h]
      exact (ih.cons y).trans (List.Perm.swap x y ys)

theorem sortBy_perm {α : Type} (le : α → α → Bool) :
    ∀ (l : List α), (sortBy le l).Perm l := by
  intro l
  induction l with
  | nil => simp [sortBy]
  | cons a l ih =>
    have : sortBy le (a :: l) = insertSorted le a (sortBy le l) := rfl
    rw [this]
    exact (insertSorted_perm le a (sortBy le l)).trans (ih.cons a)

/-!
## Text normalization lemmas
-/

theorem isWs_lowerCh (c : Nat) : isWs (lowerCh c) = isWs c := by
  unfold lowerCh
  split
  · simp only [isWs, decide_eq_decide]
    omega
  · rfl

theorem isWs_comp_lowerCh : isWs ∘ lowerCh = isWs :=
  funext isWs_lowerCh

theorem lowerStr_stripStr_comm (s : Str) : lowerStr (stripStr s) = stripStr (lowerStr s) := by
  simp only [lowerStr, stripStr, List.dropWhile_map, isWs_comp_lowerCh, ← List.map_reverse]

theorem joinAll_splitWsGo (s : Str) :
    ∀ cur : Str, joinAll (splitWsGo cur s) = cur.reverse ++ s.filter (fun c => !isWs c) := by
  induction s with
  | nil =>
    intro cur
    by_cases h : cur.isEmpty
    · have : cur = [] := List.isEmpty_iff.mp h
      simp [splitWsGo, h, joinAll, this]
    · simp [splitWsGo, h, joinAll]
  | cons c rest ih =>
    intro cur
    by_cases hw : isWs c
    · by_cases hc : cur.isEmpty
      · have hcur : cur = [] := List.isEmpty_iff.mp hc
        simp [splitWsGo, hw, hc, ih, List.filter_cons, hcur]
      · simp [splitWsGo, hw, hc, joinAll_cons, ih, List.filter_cons]
    · simp [splitWsGo, hw, ih (c :: cur), List.filter_cons]

theorem normalize_eq_filter_lower (s : Str) :
    normalize_ads_line s = lowerStr (s.filter (fun c => !isWs c)) := by
  unfold normalize_ads_line splitWs
  rw [joinAll_splitWsGo]
  simp

/-- One elementary edit of the kind claim C4 quantifies over: inserting a
whitespace character, deleting a whitespace character, or replacing a
character by one with the same lowercase form (a letter-case change). -/
inductive WsCaseStep : Str → Str → Prop where
  | insertWs (u v : Str) (c : Nat) : isWs c = true → WsCaseStep (u ++ v) (u ++ c :: v)
  | deleteWs (u v : Str) (c : Nat) : isWs c = true → WsCaseStep (u ++ c :: v) (u ++ v)
  | recase (u v : Str) (c c' : Nat) : lowerCh c = lowerCh c' →
      WsCaseStep (u ++ c :: v) (u ++ c' :: v)

theorem normalize_step_invariant {s s' : Str} (h : WsCaseStep s s') :
    normalize_ads_line s = normalize_ads_line s' := by
  cases h with
  | insertWs u v c hc =>
    simp [normalize_eq_filter_lower, List.filter_append, List.filter_cons, hc]
  | deleteWs u v c hc =>
    simp [normalize_eq_filter_lower, List.filter_append, List.filter_cons, hc]
  | recase u v c c' hcc =>
    have hws : isWs c = isWs c' := by
      rw [← isWs_lowerCh c, ← isWs_lowerCh c', hcc]
    by_cases h1 : isWs c
    · simp [normalize_eq_filter_lower, List.filter_append, List.filter_cons, h1, ← hws]
    · simp [normalize_eq_filter_lower, List.filter_append, List.filter_cons, h1, ← hws,
        lowerStr, hcc]

/-!
## Concrete store used by witnesses
-/

/-- A small populated store used by witness theorems: one domain with an
account manager and one partner with two lines. -/
def witnessDB : DBState :=
  add_partner (add_domain emptyDB (strLit "d.com") (strLit "AM"))
    (strLit "P") (strLit "Prebid")
    [strLit "x.com, 1, direct", strLit "y.com, 2, reseller"]

/-!
## Claim C4 — compare-level normalizer invariance
-/

/-- C4: `normalize_ads_line` is a pure total function invariant under
insertion or removal of whitespace characters and under letter-case changes
(any chain of such elementary edits), and every empty or all-whitespace
input normalizes to the empty string. -/
theorem c4_normalize_ads_line_invariant :
    (∀ s s' : Str, Relation.ReflTransGen WsCaseStep s s' →
      normalize_ads_line s = normalize_ads_line s') ∧
    (∀ s : Str, (∀ c ∈ s, isWs c = true) → normalize_ads_line s = []) := by
  constructor
  · intro s s' h
    induction h with
    | refl => rfl
    | tail _ hstep ih => exact ih.trans (normalize_step_invariant hstep)
  · intro s h
    rw [normalize_eq_filter_lower]
    have hnil : s.filter (fun c => !isWs c) = [] := by
      rw [List.filter_eq_nil_iff]
      intro c hc
      simp [h c hc]
    rw [hnil]
    rfl

/-- Witness for C4: one case change plus one whitespace insertion relate
`"a b"` and `"A  b"`, and an all-whitespace string normalizes to empty. -/
theorem c4_witness :
    normalize_ads_line (strLit "a b") = normalize_ads_line (strLit "A  b") ∧
    normalize_ads_line (strLit "  ") = [] := by
  constructor
  · exact c4_normalize_ads_line_invariant.1 _ _
      (Relation.ReflTransGen.tail
        (Relation.ReflTransGen.single
          (show WsCaseStep (strLit "a b") [65, 32, 98] from
            WsCaseStep.recase [] [32, 98] 97 65 (by decide)))
        (show WsCaseStep [65, 32, 98] (strLit "A  b") from
          WsCaseStep.insertWs [65] [32, 98] 32 (by decide)))
  · exact c4_normalize_ads_line_invariant.2 _ (by decide)

/-!
## Claim C5 — ingestion idempotence on a populated store
-/

/-- C5: running `init_db_from_excel` against a store whose domains table is
non-empty performs no data mutation: the store is returned exactly unchanged
(all four tables), whatever the workbook contains. -/
theorem c5_ingestion_idempotent (st : DBState) (xls : List Sheet)
    (h : st.domains ≠ []) :
    init_db_from_excel st xls = some st := by
  have hlen : st.domains.length > 0 := List.length_pos.mpr h
  unfold init_db_from_excel
  simp [hlen]

/-- Witness for C5 at a concrete populated store and workbook. -/
theorem c5_witness :
    init_db_from_excel witnessDB [] = some witnessDB :=
  c5_ingestion_idempotent witnessDB [] (by decide)

/-!
## Claim C6 — the live fetcher never propagates a failure
-/

/-- C6: `fetch_ads_txt` returns the empty list on a raised transport
error/timeout and on any non-200 status, and on success returns the
storage-normalized response lines with blank lines and `#`-comment lines
removed. -/
theorem c6_fetch_ads_txt_total (status : Nat) (body : Str) :
    fetch_ads_txt FetchOutcome.exn = [] ∧
    (status ≠ 200 → fetch_ads_txt (FetchOutcome.response status body) = []) ∧
    fetch_ads_txt (FetchOutcome.response 200 body) =
      (splitlinesStr body).filterMap (fun raw =>
        if stripStr raw = [] ∨ startsHash (stripStr raw) = true then none
        else some (storageNorm raw)) := by
  refine ⟨rfl, ?_, ?_⟩
  · intro h
    simp [fetch_ads_txt, h]
  · have hfun : (fun raw : Str =>
        if (stripStr raw).isEmpty || startsHash (stripStr raw) then none
        else some (lowerStr (stripStr raw))) =
        (fun raw : Str =>
          if stripStr raw = [] ∨ startsHash (stripStr raw) = true then none
          else some (storageNorm raw)) := by
      funext raw
      by_cases h1 : stripStr raw = []
      · simp [h1]
      · by_cases h2 : startsHash (stripStr raw)
        · simp [h1, h2, List.isEmpty_iff]
        · simp [h1, h2, List.isEmpty_iff, storageNorm]
    simp only [fetch_ads_txt, ne_eq, not_true_eq_false, if_false, ite_false, hfun]

/-- Witness for C6 at concrete outcomes. -/
theorem c6_witness :
    fetch_ads_txt (FetchOutcome.response 404 (strLit "A, B")) = [] ∧
    fetch_ads_txt (FetchOutcome.response 200 (strLit "# note\x0a A, B \x0a\x0aX")) =
      (splitlinesStr (strLit "# note\x0a A, B \x0a\x0aX")).filterMap (fun raw =>
        if stripStr raw = [] ∨ startsHash (stripStr raw) = true then none
        else some (storageNorm raw)) :=
  ⟨(c6_fetch_ads_txt_total 404 (strLit "A, B")).2.1 (by decide),
   (c6_fetch_ads_txt_total 404 (strLit "# note\x0a A, B \x0a\x0aX")).2.2⟩

/-!
## Claim C7 — add_domain is an upsert with last-write-wins
-/

theorem update_map_snd {d a : Str} {l : List (Str × Str)} :
    ∀ r ∈ l.map (fun r => if r.1 == d then (r.1, a) else r), r.1 = d → r.2 = a := by
  intro r hr hrd
  rcases List.mem_map.mp hr with ⟨r0, hr0, hf⟩
  by_cases hb : r0.1 == d
  · rw [if_pos hb] at hf
    rw [← hf]
  · rw [if_neg hb] at hf
    subst hf
    exact absurd hrd (by simpa using hb)

theorem update_map_mem {d a : Str} {l : List (Str × Str)} (r0 : Str × Str)
    (h0 : r0 ∈ l) (hd : r0.1 = d) :
    (d, a) ∈ l.map (fun r => if r.1 == d then (r.1, a) else r) := by
  have : (fun r : Str × Str => if r.1 == d then (r.1, a) else r) r0 = (d, a) := by
    show (if (r0.1 == d) = true then (r0.1, a) else r0) = (d, a)
    rw [if_pos (by simp [hd]), hd]
  exact this ▸ List.mem_map_of_mem _ h0

/-- C7: `add_domain` is an upsert with last-write-wins: when the key's
storage-normalized form is non-empty a domain row with that key exists
afterwards and every row with that key carries the given trimmed account
manager; when the key normalizes to empty the call changes nothing. -/
theorem c7_add_domain_upsert (st : DBState) (key am : Str) :
    (storageNorm key ≠ [] →
      ((storageNorm key, stripStr am) ∈ (add_domain st key am).domains ∧
       ∀ r ∈ (add_domain st key am).domains, r.1 = storageNorm key → r.2 = stripStr am)) ∧
    (storageNorm key = [] → add_domain st key am = st) := by
  have hcomm : stripStr (lowerStr key) = storageNorm key := by
    rw [storageNorm, lowerStr_stripStr_comm]
  by_cases hd : stripStr (lowerStr key) = []
  · refine ⟨fun hne => absurd (hcomm ▸ hd) hne, fun _ => ?_⟩
    simp [add_domain, hd]
  · have hne : storageNorm key ≠ [] := fun hc => hd (hcomm.symm ▸ hc)
    refine ⟨fun _ => ?_, fun hc => absurd (hcomm.symm ▸ hc) hd⟩
    rw [← hcomm]
    set d := stripStr (lowerStr key) with hdd
    show (d, stripStr am) ∈ (add_domain st key am).domains ∧ _
    by_cases hany : st.domains.any (fun r => r.1 == d)
    · have hdoms : (add_domain st key am).domains =
          st.domains.map (fun r => if r.1 == d then (r.1, stripStr am) else r) := by
        simp [add_domain, hd, ← hdd, hany]
      rcases List.any_eq_true.mp hany with ⟨r0, hr0, hb⟩
      constructor
      · rw [hdoms]
        exact update_map_mem r0 hr0 (by simpa using hb)
      · rw [hdoms]
        exact update_map_snd
    · have hdoms : (add_domain st key am).domains =
          (st.domains ++ [(d, stripStr am)]).map
            (fun r => if r.1 == d then (r.1, stripStr am) else r) := by
        simp [add_domain, hd, ← hdd, hany]
      constructor
      · rw [hdoms]
        exact update_map_mem (d, stripStr am) (by simp) rfl
      · rw [hdoms]
        exact update_map_snd

/-- Witness for C7: adding a domain whose key normalizes non-empty leaves a
row with the trimmed account manager; instantiated on `witnessDB`. -/
theorem c7_witness :
    (storageNorm (strLit " D.Com "), stripStr (strLit " Bob ")) ∈
      (add_domain witnessDB (strLit " D.Com ") (strLit " Bob ")).domains :=
  ((c7_add_domain_upsert witnessDB (strLit " D.Com ") (strLit " Bob ")).1 (by decide)).1

/-!
## Claim C9 — de-duplicating read accessors
-/

/-- C9: `get_partner_lines` and `get_master_lines` return the stored line
sequence de-duplicated by exact text: the result has no duplicates, has
exactly the stored texts as members, and is ordered by first occurrence in
the stored sequence. -/
theorem c9_read_accessors_dedup (st : DBState) (pid : Nat) :
    ((get_partner_lines st pid).Nodup ∧
     (∀ x, x ∈ get_partner_lines st pid ↔ x ∈ partnerStoredLines st pid) ∧
     (get_partner_lines st pid).Pairwise
       (fun a b => idxOfStr a (partnerStoredLines st pid) <
         idxOfStr b (partnerStoredLines st pid))) ∧
    ((get_master_lines st).Nodup ∧
     (∀ x, x ∈ get_master_lines st ↔ x ∈ st.masterLines) ∧
     (get_master_lines st).Pairwise
       (fun a b => idxOfStr a st.masterLines < idxOfStr b st.masterLines)) :=
  ⟨⟨nodup_dedupFirst _, fun _ => mem_dedupFirst, pairwise_idxOf_dedupFirst _⟩,
   ⟨nodup_dedupFirst _, fun _ => mem_dedupFirst, pairwise_idxOf_dedupFirst _⟩⟩

/-- Witness for C9 on the concrete witness store. -/
theorem c9_witness :
    (get_partner_lines witnessDB 1).Nodup ∧
    (strLit "x.com, 1, direct" ∈ get_partner_lines witnessDB 1 ↔
      strLit "x.com, 1, direct" ∈ partnerStoredLines witnessDB 1) :=
  ⟨(c9_read_accessors_dedup witnessDB 1).1.1,
   (c9_read_accessors_dedup witnessDB 1).1.2.1 _⟩

/-!
## Claim C10 — rename_partner result value
-/

/-- C10: `rename_partner old new` returns `true` exactly when the trimmed new
name is non-empty and collides with no existing partner's exact name (even
when no partner named `old` exists, in which case nothing is renamed); it
returns `false` exactly otherwise, and then the store is unchanged. -/
theorem c10_rename_partner_result (st : DBState) (oldName newName : Str) :
    ((rename_partner st oldName newName).1 = true ↔
      (stripStr newName ≠ [] ∧ ∀ p ∈ st.partners, p.2.1 ≠ stripStr newName)) ∧
    ((rename_partner st oldName newName).1 = false →
      (rename_partner st oldName newName).2 = st) ∧
    ((∀ p ∈ st.partners, p.2.1 ≠ oldName) →
      (rename_partner st oldName newName).2 = st) := by
  by_cases h1 : stripStr newName = []
  · refine ⟨?_, ?_, ?_⟩
    · simp [rename_partner, h1]
    · intro _
      simp [rename_partner, h1]
    · intro _
      simp [rename_partner, h1]
  · by_cases h2 : st.partners.any (fun p => p.2.1 == stripStr newName)
    · have hcoll : ¬ ∀ p ∈ st.partners, p.2.1 ≠ stripStr newName := by
        rcases List.any_eq_true.mp h2 with ⟨p, hp, hb⟩
        intro hall
        exact hall p hp (by simpa using hb)
      refine ⟨?_, ?_, ?_⟩
      · simp only [rename_partner, if_neg h1, if_pos h2]
        simpa using fun hne => hcoll
      · intro _
        simp [rename_partner, h1, h2]
      · intro _
        simp [rename_partner, h1, h2]
    · have hf : ∀ p ∈ st.partners, (p.2.1 == stripStr newName) = false := by
        intro p hp
        by_contra hb
        exact h2 (List.any_eq_true.mpr ⟨p, hp, by simpa using hb⟩)
      have hred : rename_partner st oldName newName =
          (true, { st with
            partners := st.partners.map
              (fun p => if p.2.1 == oldName then (p.1, stripStr newName, p.2.2) else p) }) := by
        simp [rename_partner, h1, h2]
      refine ⟨?_, ?_, ?_⟩
      · rw [hred]
        refine ⟨fun _ => ⟨h1, fun p hp hc => ?_⟩, fun _ => rfl⟩
        have := hf p hp
        rw [hc] at this
        simp at this
      · intro hfalse
        rw [hred] at hfalse
        exact absurd hfalse (by simp)
      · intro hold
        have hmap : st.partners.map
            (fun p => if p.2.1 == oldName then (p.1, stripStr newName, p.2.2) else p) =
            st.partners := by
          apply map_id_of_mem
          intro p hp
          rw [if_neg (by simpa using hold p hp)]
        rw [hred, hmap]

/-- Witness for C10: renaming a missing partner to a fresh name reports
success and leaves the store unchanged; instantiated on `witnessDB`. -/
theorem c10_witness :
    ((rename_partner witnessDB (strLit "nope") (strLit "Q")).1 = true ↔
      (stripStr (strLit "Q") ≠ [] ∧
        ∀ p ∈ witnessDB.partners, p.2.1 ≠ stripStr (strLit "Q"))) ∧
    (rename_partner witnessDB (strLit "nope") (strLit "Q")).2 = witnessDB :=
  ⟨(c10_rename_partner_result witnessDB (strLit "nope") (strLit "Q")).1,
   (c10_rename_partner_result witnessDB (strLit "nope") (strLit "Q")).2.2 (by decide)⟩

/-!
## Claim C2 — partner-name uniqueness
-/

/-- The stored partner names, in row order. -/
def partnerNames (st : DBState) : List Str := st.partners.map (fun p => p.2.1)

theorem insertMasterIgnore_partners (s : DBState) (ln : Str) :
    (insertMasterIgnore s ln).partners = s.partners := by
  unfold insertMasterIgnore
  split <;> rfl

theorem linesFold_partners (pid : Nat) (clean : List Str) :
    ∀ s : DBState,
      (clean.foldl (fun s ln =>
        insertMasterIgnore { s with partnerLines := s.partnerLines ++ [(pid, ln)] } ln)
          s).partners = s.partners := by
  induction clean with
  | nil => intro s; rfl
  | cons a l ih =>
    intro s
    rw [List.foldl_cons, ih, insertMasterIgnore_partners]

theorem add_partner_partners_cases (st : DBState) (name it : Str) (lines : List Str) :
    (add_partner st name it lines).partners = st.partners ∨
    ((add_partner st name it lines).partners =
        st.partners ++ [(st.nextPartnerId, stripStr name, stripStr it)] ∧
      st.partners.any (fun p => p.2.1 == stripStr name) = false) := by
  unfold add_partner
  by_cases h0 : stripStr name = [] ∨
      ((lines.filter (fun l => !(stripStr l).isEmpty)).map (fun l => lowerStr (stripStr l))) = []
  · left
    rw [if_pos h0]
  · rw [if_neg h0]
    by_cases hany : st.partners.any (fun p => p.2.1 == stripStr name)
    · left
      rw [if_pos hany]
      dsimp only
      split
      · rfl
      · rw [linesFold_partners]
    · refine Or.inr ⟨?_, by rw [Bool.eq_false_iff]; exact hany⟩
      rw [if_neg hany]
      dsimp only
      split
      · rfl
      · rw [linesFold_partners]

theorem partnerNames_nodup_add_partner {st : DBState}
    (h : (partnerNames st).Nodup) (name it : Str) (lines : List Str) :
    (partnerNames (add_partner st name it lines)).Nodup := by
  rcases add_partner_partners_cases st name it lines with hc | ⟨hc, hany⟩
  · unfold partnerNames
    rw [hc]
    exact h
  · unfold partnerNames
    rw [hc, List.map_append]
    refine List.Nodup.append h (List.nodup_singleton _) ?_
    intro a ha hb
    simp only [List.map_cons, List.map_nil, List.mem_singleton] at hb
    subst hb
    rcases List.mem_map.mp ha with ⟨p, hp, hpn⟩
    have hpne := List.any_eq_false.mp hany p hp
    simp only [beq_iff_eq] at hpne
    exact hpne (by rw [hpn])

theorem partnerNames_nodup_rename {st : DBState} (h : (partnerNames st).Nodup)
    (oldName newName : Str) :
    (partnerNames (rename_partner st oldName newName).2).Nodup := by
  unfold rename_partner
  by_cases h1 : stripStr newName = []
  · simpa [h1] using h
  · by_cases h2 : st.partners.any (fun p => p.2.1 == stripStr newName)
    · simpa [h1, h2] using h
    · simp only [if_neg h1, if_neg h2]
      have hmm : (partnerNames { st with
          partners := st.partners.map
            (fun p => if p.2.1 == oldName then (p.1, stripStr newName, p.2.2) else p) }) =
          (partnerNames st).map
            (fun x => if x == oldName then stripStr newName else x) := by
        unfold partnerNames
        simp only [List.map_map]
        apply List.map_congr_left
        intro p _
        by_cases hb : p.2.1 == oldName
        · simp only [Function.comp_apply, if_pos hb]
        · simp only [Function.comp_apply, if_neg hb]
      show (partnerNames _).Nodup
      rw [hmm]
      have h2f : (st.partners.any (fun p => p.2.1 == stripStr newName)) = false := by
        rw [Bool.eq_false_iff]
        exact h2
      have hnc : ∀ x ∈ partnerNames st, x ≠ stripStr newName := by
        intro x hx hc
        rcases List.mem_map.mp hx with ⟨p, hp, hpn⟩
        have hpne := List.any_eq_false.mp h2f p hp
        simp only [beq_iff_eq] at hpne
        exact hpne (by rw [hpn, hc])
      refine List.Nodup.map_on ?_ h
      intro x hx y hy hxy
      by_cases hxo : x == oldName
      · by_cases hyo : y == oldName
        · rw [show x = oldName by simpa using hxo, show y = oldName by simpa using hyo]
        · rw [if_pos hxo, if_neg hyo] at hxy
          exact absurd hxy.symm (hnc y hy)
      · by_cases hyo : y == oldName
        · rw [if_neg hxo, if_pos hyo] at hxy
          exact absurd hxy (hnc x hx)
        · rw [if_neg hxo, if_neg hyo] at hxy
          exact hxy

theorem ingestDomainRow_partners (s : DBState) (cell : Option Str × Option Str) :
    (ingestDomainRow s cell).partners = s.partners := by
  unfold ingestDomainRow
  rcases cell with ⟨c1, c2⟩
  cases c1 with
  | none => rfl
  | some dv =>
    dsimp only
    split
    · rfl
    · split
      · rfl
      · rfl

theorem ingestMasterCell_partners (s : DBState) (t : Str) :
    (ingestMasterCell s t).partners = s.partners := by
  unfold ingestMasterCell
  refine foldl_preserve (P := fun x : DBState => x.partners = s.partners) ?_ _ _ rfl
  intro x line hx
  dsimp only
  split
  · exact hx
  · rw [insertMasterIgnore_partners]
    exact hx

theorem ingestPartnerCell_partners (pid : Nat) (s : DBState) (t : Str) :
    (ingestPartnerCell pid s t).partners = s.partners := by
  unfold ingestPartnerCell
  refine foldl_preserve (P := fun x : DBState => x.partners = s.partners) ?_ _ _ rfl
  intro x line hx
  dsimp only
  split
  · exact hx
  · rw [insertMasterIgnore_partners]
    exact hx

theorem foldl_ingestPartnerCell_partners (pid : Nat) (cells : List Str) :
    ∀ s : DBState, (cells.foldl (ingestPartnerCell pid) s).partners = s.partners := by
  induction cells with
  | nil => intro s; rfl
  | cons c cs ih =>
    intro s
    rw [List.foldl_cons, ih, ingestPartnerCell_partners]

theorem partnerNames_nodup_ingestPartnerSheet {s : DBState}
    (h : (partnerNames s).Nodup) (sh : Sheet) :
    (partnerNames (ingestPartnerSheet s sh)).Nodup := by
  unfold ingestPartnerSheet
  by_cases hc : sh.ncols < 7
  · rw [if_pos hc]
    exact h
  · rw [if_neg hc]
    dsimp only
    by_cases hany : s.partners.any (fun p => p.2.1 == stripStr sh.name)
    · rw [if_pos hany]
      split
      · exact h
      · unfold partnerNames
        rw [foldl_ingestPartnerCell_partners]
        exact h
    · rw [if_neg hany]
      have hany' : s.partners.any (fun p => p.2.1 == stripStr sh.name) = false := by
        rw [Bool.eq_false_iff]
        exact hany
      have hnodup1 : (partnerNames { s with
          partners := s.partners ++ [(s.nextPartnerId, stripStr sh.name,
            match sh.col4.filterMap id with
            | [] => []
            | v :: _ => stripStr v)],
          nextPartnerId := s.nextPartnerId + 1 }).Nodup := by
        unfold partnerNames
        dsimp only
        rw [List.map_append]
        refine List.Nodup.append h (List.nodup_singleton _) ?_
        intro a ha hb
        simp only [List.map_cons, List.map_nil, List.mem_singleton] at hb
        subst hb
        rcases List.mem_map.mp ha with ⟨p, hp, hpn⟩
        have hpne := List.any_eq_false.mp hany' p hp
        simp only [beq_iff_eq] at hpne
        exact hpne (by rw [hpn])
      split
      · exact hnodup1
      · unfold partnerNames
        rw [foldl_ingestPartnerCell_partners]
        exact hnodup1

theorem partnerNames_nodup_ingest {st st' : DBState} (h : (partnerNames st).Nodup)
    {xls : List Sheet} (hinit : init_db_from_excel st xls = some st') :
    (partnerNames st').Nodup := by
  unfold init_db_from_excel at hinit
  by_cases h0 : st.domains.length > 0
  · rw [if_pos h0] at hinit
    cases hinit
    exact h
  · rw [if_neg h0] at hinit
    by_cases h1 : xls.length < 2
    · rw [if_pos h1] at hinit
      cases hinit
    · rw [if_neg h1] at hinit
      cases xls with
      | nil => cases hinit
      | cons master rest =>
        dsimp only at hinit
        by_cases h2 : master.ncols < 7
        · rw [if_pos h2] at hinit
          cases hinit
        · rw [if_neg h2] at hinit
          cases hinit
          have hst1 : ((master.col0.zip master.col3).foldl ingestDomainRow st).partners =
              st.partners :=
            foldl_preserve (P := fun x : DBState => x.partners = st.partners)
              (fun x c hx => (ingestDomainRow_partners x c).trans hx) _ _ rfl
          have hst2 : (((master.col6.filterMap id).foldl ingestMasterCell
              ((master.col0.zip master.col3).foldl ingestDomainRow st))).partners =
              st.partners := by
            rw [foldl_preserve (P := fun x : DBState =>
                x.partners = ((master.col0.zip master.col3).foldl ingestDomainRow st).partners)
              (fun x c hx => (ingestMasterCell_partners x c).trans hx) _ _ rfl]
            exact hst1
          have hn2 : (partnerNames ((master.col6.filterMap id).foldl ingestMasterCell
              ((master.col0.zip master.col3).foldl ingestDomainRow st))).Nodup := by
            unfold partnerNames
            rw [hst2]
            exact h
          exact foldl_preserve (P := fun x : DBState => (partnerNames x).Nodup)
            (fun x sh hx => partnerNames_nodup_ingestPartnerSheet hx sh) _ _ hn2

/-- C2 counterexample store: two `add_partner` calls starting from the empty
store, with names `"Foo"` and `"foo"`. -/
def c2CexDB : DBState :=
  add_partner (add_partner emptyDB (strLit "Foo") (strLit "Prebid") [strLit "x"])
    (strLit "foo") (strLit "VAST") [strLit "y"]

/-- C2 counterexample: a sequence of store operations (two `add_partner`
calls) produces two distinct partner rows whose names are equal after
storage normalization (trim + lowercase), refuting the claimed invariant;
the exact (case-sensitive) names do remain distinct. -/
theorem c2_counterexample :
    ¬ ((c2CexDB.partners.map (fun p => storageNorm p.2.1)).Nodup) ∧
    (partnerNames c2CexDB).Nodup := by
  constructor
  · decide
  · decide

/-- C2 amended: partner names are unique under their exact (trimmed,
case-sensitive) form, not under the case-insensitive normalized form:
starting from any store whose partner names are distinct, ingestion,
`add_partner`, and `rename_partner` preserve exact-name distinctness. -/
theorem c2_exact_name_uniqueness (st : DBState) (h : (partnerNames st).Nodup) :
    (∀ name it lines, (partnerNames (add_partner st name it lines)).Nodup) ∧
    (∀ oldName newName, (partnerNames (rename_partner st oldName newName).2).Nodup) ∧
    (∀ xls st', init_db_from_excel st xls = some st' → (partnerNames st').Nodup) :=
  ⟨fun name it lines => partnerNames_nodup_add_partner h name it lines,
   fun oldName newName => partnerNames_nodup_rename h oldName newName,
   fun _ _ hinit => partnerNames_nodup_ingest h hinit⟩

/-- Witness for the amended C2 on the concrete witness store. -/
theorem c2_witness :
    (partnerNames (add_partner witnessDB (strLit "Q") (strLit "VAST") [strLit "z"])).Nodup :=
  (c2_exact_name_uniqueness witnessDB (by decide)).1 (strLit "Q") (strLit "VAST") [strLit "z"]

/-!
## Claim C8 — delete_partners cascades
-/

theorem any_filter {α : Type} (f g : α → Bool) :
    ∀ l : List α, (l.filter f).any g = l.any (fun x => f x && g x) := by
  intro l
  induction l with
  | nil => rfl
  | cons a l ih =>
    by_cases h : f a
    · simp [List.filter_cons, h, ih]
    · simp [List.filter_cons, h, ih]

theorem any_or_distrib {α : Type} (f g : α → Bool) :
    ∀ l : List α, l.any (fun x => f x || g x) = (l.any f || l.any g) := by
  intro l
  induction l with
  | nil => rfl
  | cons a l ih =>
    simp only [List.any_cons, ih]
    cases f a <;> cases g a <;> cases l.any f <;> cases l.any g <;> rfl

theorem any_congr_mem {α : Type} {f g : α → Bool} :
    ∀ {l : List α}, (∀ a ∈ l, f a = g a) → l.any f = l.any g := by
  intro l
  induction l with
  | nil => intro _; rfl
  | cons a l ih =>
    intro h
    simp only [List.any_cons, h a (List.mem_cons_self a l),
      ih (fun b hb => h b (List.mem_cons_of_mem a hb))]

theorem delete_foldl_spec (names : List Str) :
    ∀ s : DBState, (partnerNames s).Nodup → (s.partners.map (fun p => p.1)).Nodup →
      (names.foldl deletePartnerStep s).domains = s.domains ∧
      (names.foldl deletePartnerStep s).masterLines = s.masterLines ∧
      (names.foldl deletePartnerStep s).nextPartnerId = s.nextPartnerId ∧
      (names.foldl deletePartnerStep s).partners =
        s.partners.filter (fun p => !(names.contains p.2.1)) ∧
      (names.foldl deletePartnerStep s).partnerLines =
        s.partnerLines.filter (fun pl =>
          !(s.partners.any (fun p => p.1 == pl.1 && names.contains p.2.1))) := by
  induction names with
  | nil =>
    intro s _ _
    refine ⟨rfl, rfl, rfl, ?_, ?_⟩
    · exact (List.filter_eq_self.mpr (fun a _ => rfl)).symm
    · symm
      apply List.filter_eq_self.mpr
      intro pl _
      have hfalse : s.partners.any (fun p => p.1 == pl.1 && ([] : List Str).contains p.2.1)
          = false := by
        rw [List.any_eq_false]
        intro p _
        simp [List.contains]
      rw [hfalse]
      rfl
  | cons n rest ih =>
    intro s hn hi
    rw [List.foldl_cons]
    cases hfind : findPartnerId s n with
    | none =>
      have hstep : deletePartnerStep s n = s := by
        unfold deletePartnerStep
        rw [hfind]
      rw [hstep]
      obtain ⟨d1, d2, d3, d4, d5⟩ := ih s hn hi
      have hnone : ∀ p ∈ s.partners, (p.2.1 == n) = false := by
        intro p hp
        have hfq : s.partners.find? (fun p => p.2.1 == n) = none := by
          unfold findPartnerId at hfind
          exact Option.map_eq_none'.mp hfind
        have := List.find?_eq_none.mp hfq p hp
        exact Bool.eq_false_iff.mpr this
      refine ⟨d1, d2, d3, ?_, ?_⟩
      · rw [d4]
        apply List.filter_congr
        intro p hp
        rw [List.contains_cons, hnone p hp, Bool.false_or]
      · rw [d5]
        apply List.filter_congr
        intro pl _
        have hany : (s.partners.any fun p => p.1 == pl.1 && rest.contains p.2.1) =
            (s.partners.any fun p => p.1 == pl.1 && (n :: rest).contains p.2.1) := by
          apply any_congr_mem
          intro p hp
          rw [List.contains_cons, hnone p hp, Bool.false_or]
        rw [hany]
    | some pid =>
      have hex : ∃ p0, s.partners.find? (fun p => p.2.1 == n) = some p0 := by
        unfold findPartnerId at hfind
        cases hfq : s.partners.find? (fun p => p.2.1 == n) with
        | none => rw [hfq] at hfind; cases hfind
        | some p0 => exact ⟨p0, rfl⟩
      obtain ⟨p0, hfq⟩ := hex
      have hpid : p0.1 = pid := by
        unfold findPartnerId at hfind
        rw [hfq] at hfind
        simpa using hfind
      have hp0mem : p0 ∈ s.partners := List.mem_of_find?_eq_some hfq
      have hp0n : p0.2.1 = n := by
        have := List.find?_some hfq
        simpa using this
      have hid_iff : ∀ p ∈ s.partners, p.1 = pid ↔ p = p0 := by
        intro p hp
        constructor
        · intro hpp
          exact List.inj_on_of_nodup_map hi hp hp0mem (by rw [hpp, hpid])
        · intro hpp
          rw [hpp, hpid]
      have hname_iff : ∀ p ∈ s.partners, p.2.1 = n ↔ p = p0 := by
        intro p hp
        constructor
        · intro hpp
          have hn2 : (s.partners.map (fun p => p.2.1)).Nodup := hn
          refine List.inj_on_of_nodup_map hn2 hp hp0mem ?_
          show p.2.1 = p0.2.1
          rw [hpp, hp0n]
        · intro hpp
          rw [hpp, hp0n]
      have hstep : deletePartnerStep s n = { s with
          partnerLines := s.partnerLines.filter (fun pl => !(pl.1 == pid)),
          partners := s.partners.filter (fun p => !(p.1 == pid)) } := by
        unfold deletePartnerStep
        rw [hfind]
      rw [hstep]
      have hn' : (partnerNames { s with
          partnerLines := s.partnerLines.filter (fun pl => !(pl.1 == pid)),
          partners := s.partners.filter (fun p => !(p.1 == pid)) }).Nodup := by
        unfold partnerNames
        exact ((List.filter_sublist s.partners).map _).nodup hn
      have hi' : (({ s with
          partnerLines := s.partnerLines.filter (fun pl => !(pl.1 == pid)),
          partners := s.partners.filter (fun p => !(p.1 == pid)) } :
            DBState).partners.map (fun p => p.1)).Nodup := by
        exact ((List.filter_sublist s.partners).map _).nodup hi
      obtain ⟨e1, e2, e3, e4, e5⟩ := ih _ hn' hi'
      have hbeq_eq : ∀ p ∈ s.partners, (p.1 == pid) = (p.2.1 == n) := by
        intro p hp
        by_cases hpp : p = p0
        · rw [hpp, hpid, hp0n]
          simp
        · have hb1 : (p.1 == pid) = false := by
            rw [beq_eq_false_iff_ne]
            intro hc
            exact hpp ((hid_iff p hp).mp hc)
          have hb2 : (p.2.1 == n) = false := by
            rw [beq_eq_false_iff_ne]
            intro hc
            exact hpp ((hname_iff p hp).mp hc)
          rw [hb1, hb2]
      refine ⟨e1, e2, e3, ?_, ?_⟩
      · rw [e4]
        dsimp only
        rw [List.filter_filter]
        apply List.filter_congr
        intro p hp
        rw [List.contains_cons, Bool.not_or, hbeq_eq p hp, Bool.and_comm]
      · rw [e5]
        dsimp only
        have hkey : ∀ pl1 : Nat,
            (s.partners.any fun p => p.1 == pl1 && p.2.1 == n) = (pl1 == pid) := by
          intro pl1
          by_cases hpl : pl1 = pid
          · subst hpl
            rw [List.any_eq_true.mpr ⟨p0, hp0mem, by rw [hpid, hp0n]; simp⟩]
            simp
          · rw [beq_eq_false_iff_ne.mpr hpl, List.any_eq_false]
            intro p hp
            by_cases hpn : (p.2.1 == n) = true
            · have : p = p0 := (hname_iff p hp).mp (by simpa using hpn)
              have : (p.1 == pl1) = false := by
                rw [beq_eq_false_iff_ne, this, hpid]
                exact fun hc => hpl (hc.symm)
              simp [this]
            · simp [Bool.eq_false_iff.mpr hpn]
        have hinner : ∀ pl ∈ s.partnerLines.filter (fun pl => !(pl.1 == pid)),
            (((s.partners.filter (fun p => !(p.1 == pid))).any
              (fun p => p.1 == pl.1 && rest.contains p.2.1)) : Bool) =
            (s.partners.any (fun p => p.1 == pl.1 && rest.contains p.2.1)) := by
          intro pl hpl
          have hplpid : (pl.1 == pid) = false := by
            have := (List.mem_filter.mp hpl).2
            simpa using this
          rw [any_filter]
          apply any_congr_mem
          intro p hp
          by_cases hppl : (p.1 == pl.1) = true
          · have : (p.1 == pid) = false := by
              rw [beq_eq_false_iff_ne]
              intro hc
              rw [show p.1 = pl.1 by simpa using hppl] at hc
              rw [hc] at hplpid
              simp at hplpid
            rw [this]
            simp
          · rw [Bool.eq_false_iff.mpr hppl]
            simp
        have hinner2 : ∀ pl ∈ s.partnerLines.filter (fun pl => !(pl.1 == pid)),
            ((!((s.partners.filter (fun p => !(p.1 == pid))).any
              (fun p => p.1 == pl.1 && rest.contains p.2.1))) : Bool) =
            (!(s.partners.any (fun p => p.1 == pl.1 && rest.contains p.2.1))) := by
          intro pl hpl
          rw [hinner pl hpl]
        rw [List.filter_congr hinner2, List.filter_filter]
        apply List.filter_congr
        intro pl _
        have hsplit : (s.partners.any fun p => p.1 == pl.1 && (n :: rest).contains p.2.1) =
            ((s.partners.any fun p => p.1 == pl.1 && p.2.1 == n) ||
             (s.partners.any fun p => p.1 == pl.1 && rest.contains p.2.1)) := by
          rw [← any_or_distrib]
          apply any_congr_mem
          intro p _
          rw [List.contains_cons]
          cases p.1 == pl.1 <;> cases p.2.1 == n <;> cases rest.contains p.2.1 <;> rfl
        rw [hsplit, hkey, Bool.not_or, Bool.and_comm]

theorem delete_partners_eq_foldl (st : DBState) (names : List Str) :
    delete_partners st names = names.foldl deletePartnerStep st := by
  unfold delete_partners
  by_cases h : names = []
  · subst h
    rfl
  · rw [if_neg h]

/-- C8: `delete_partners` cascades per named partner: the named partners'
line rows and partner rows are gone afterwards (their line queries return
empty and their names resolve to no partner), unmatched names are skipped,
and domains, master lines, the id counter, other partners and their lines
are untouched.  The `UNIQUE` name and `PRIMARY KEY` id constraints of the
`partners` table are the hypotheses. -/
theorem c8_delete_partners_cascade (st : DBState) (names : List Str)
    (hn : (partnerNames st).Nodup) (hi : (st.partners.map (fun p => p.1)).Nodup) :
    (delete_partners st names).domains = st.domains ∧
    (delete_partners st names).masterLines = st.masterLines ∧
    (delete_partners st names).nextPartnerId = st.nextPartnerId ∧
    (∀ p ∈ st.partners, p.2.1 ∈ names →
      p ∉ (delete_partners st names).partners ∧
      get_partner_lines (delete_partners st names) p.1 = [] ∧
      findPartnerId (delete_partners st names) p.2.1 = none) ∧
    (∀ p ∈ st.partners, p.2.1 ∉ names → p ∈ (delete_partners st names).partners) ∧
    (∀ pl ∈ st.partnerLines,
      (∀ p ∈ st.partners, p.1 = pl.1 → p.2.1 ∉ names) →
      pl ∈ (delete_partners st names).partnerLines) := by
  rw [delete_partners_eq_foldl]
  obtain ⟨d1, d2, d3, d4, d5⟩ := delete_foldl_spec names st hn hi
  refine ⟨d1, d2, d3, ?_, ?_, ?_⟩
  · intro p hp hpn
    have hcon : names.contains p.2.1 = true := by simpa using hpn
    refine ⟨?_, ?_, ?_⟩
    · intro hmem
      rw [d4] at hmem
      have := (List.mem_filter.mp hmem).2
      rw [hcon] at this
      simp at this
    · unfold get_partner_lines partnerStoredLines
      have hempty : (names.foldl deletePartnerStep st).partnerLines.filter
          (fun pl => pl.1 == p.1) = [] := by
        rw [List.filter_eq_nil_iff]
        intro pl hpl hbeq
        rw [d5] at hpl
        obtain ⟨hplmem, hkeep⟩ := List.mem_filter.mp hpl
        have hany : st.partners.any (fun q => q.1 == pl.1 && names.contains q.2.1) = true := by
          refine List.any_eq_true.mpr ⟨p, hp, ?_⟩
          have : p.1 = pl.1 := by
            have h2 : pl.1 = p.1 := by simpa using hbeq
            exact h2.symm
          rw [show (p.1 == pl.1) = true by simpa using this, hcon]
          rfl
        rw [hany] at hkeep
        simp at hkeep
      rw [hempty]
      rfl
    · unfold findPartnerId
      rw [Option.map_eq_none']
      rw [List.find?_eq_none]
      intro q hq hbeq
      rw [d4] at hq
      obtain ⟨hqmem, hqkeep⟩ := List.mem_filter.mp hq
      have hqn : q.2.1 = p.2.1 := by simpa using hbeq
      rw [hqn, hcon] at hqkeep
      simp at hqkeep
  · intro p hp hpn
    rw [d4]
    refine List.mem_filter.mpr ⟨hp, ?_⟩
    have : names.contains p.2.1 = false := by simpa using hpn
    rw [this]
    rfl
  · intro pl hpl hno
    rw [d5]
    refine List.mem_filter.mpr ⟨hpl, ?_⟩
    have hany : st.partners.any (fun q => q.1 == pl.1 && names.contains q.2.1) = false := by
      rw [List.any_eq_false]
      intro q hq
      by_cases hqid : q.1 = pl.1
      · have : names.contains q.2.1 = false := by simpa using hno q hq hqid
        rw [this]
        simp
      · have : (q.1 == pl.1) = false := by simpa using hqid
        rw [this]
        simp
    rw [hany]
    rfl

/-- Witness for C8: deleting partner `"P"` from the witness store removes its
row and its lines while keeping domains and master lines. -/
theorem c8_witness :
    (delete_partners witnessDB [strLit "P"]).domains = witnessDB.domains ∧
    (delete_partners witnessDB [strLit "P"]).masterLines = witnessDB.masterLines ∧
    ((1, strLit "P", strLit "Prebid") ∉ (delete_partners witnessDB [strLit "P"]).partners ∧
      get_partner_lines (delete_partners witnessDB [strLit "P"]) 1 = [] ∧
      findPartnerId (delete_partners witnessDB [strLit "P"]) (strLit "P") = none) := by
  have h := c8_delete_partners_cascade witnessDB [strLit "P"] (by decide) (by decide)
  exact ⟨h.1, h.2.1, h.2.2.2.1 (1, strLit "P", strLit "Prebid") (by decide) (by decide)⟩

/-!
## Claim C3 — present/missing partition every expected line
-/

/-- C3: for every emitted reconciliation row, the present and missing counts
are exactly the counts of the compare-normalized-membership filter and its
complement over the provider's de-duplicated expected lines, so their sum is
exactly the number of expected lines: nothing is counted twice or dropped. -/
theorem c3_present_missing_partition (st : DBState) (sel : List Str) (filt : Str)
    (doms : List Str) (live : Str → List Str) :
    ∀ r ∈ validateRows st sel filt doms live,
      (∃ pi : Nat × Str, partner_name_map_find st r.demandPartner = some pi ∧
        r.presentCount = (computePresent (get_partner_lines st pi.1) (live r.domain)).length ∧
        r.missingCount = (computeMissing (get_partner_lines st pi.1) (live r.domain)).length ∧
        r.presentCount + r.missingCount = (get_partner_lines st pi.1).length ∧
        get_partner_lines st pi.1 ≠ []) ∨
      (r.demandPartner = masterLabel ∧
        r.presentCount = (computePresent (get_master_lines st) (live r.domain)).length ∧
        r.missingCount = (computeMissing (get_master_lines st) (live r.domain)).length ∧
        r.presentCount + r.missingCount = (get_master_lines st).length) := by
  intro r hr
  unfold validateRows at hr
  by_cases hids : (resolveChosenIds st sel filt).isEmpty
  · rw [if_pos hids] at hr
    right
    rcases List.mem_map.mp hr with ⟨dom, _, hmk⟩
    subst hmk
    exact ⟨rfl, rfl, rfl, length_filter_add_length_filter_not _ _⟩
  · rw [if_neg hids] at hr
    left
    rcases mem_joinAll.mp hr with ⟨rows, hrows, hrmem⟩
    rcases List.mem_map.mp hrows with ⟨pname, _, hpr⟩
    subst hpr
    unfold partnerRowsFor at hrmem
    cases hfind : partner_name_map_find st pname with
    | none =>
      rw [hfind] at hrmem
      cases hrmem
    | some pi =>
      rw [hfind] at hrmem
      dsimp only at hrmem
      by_cases hemp : (get_partner_lines st pi.1).isEmpty
      · rw [if_pos hemp] at hrmem
        cases hrmem
      · rw [if_neg hemp] at hrmem
        rcases List.mem_map.mp hrmem with ⟨dom, _, hmk⟩
        subst hmk
        refine ⟨pi, hfind, rfl, rfl, length_filter_add_length_filter_not _ _, ?_⟩
        intro hc
        rw [List.isEmpty_iff] at hemp
        exact hemp hc

/-- The empty live-line map used by witnesses (every fetch failed). -/
def liveEmpty : Str → List Str := fun _ => []

/-- The partner row emitted for `witnessDB`, partner `"P"`, domain `"d.com"`
with no live lines. -/
def rowW : Row :=
  mkPartnerRow witnessDB liveEmpty (strLit "P") 1 (strLit "Prebid") (strLit "d.com")

/-- Witness for C3 at a concrete emitted row. -/
theorem c3_witness :
    (∃ pi : Nat × Str, partner_name_map_find witnessDB rowW.demandPartner = some pi ∧
      rowW.presentCount =
        (computePresent (get_partner_lines witnessDB pi.1) (liveEmpty rowW.domain)).length ∧
      rowW.missingCount =
        (computeMissing (get_partner_lines witnessDB pi.1) (liveEmpty rowW.domain)).length ∧
      rowW.presentCount + rowW.missingCount = (get_partner_lines witnessDB pi.1).length ∧
      get_partner_lines witnessDB pi.1 ≠ []) ∨
    (rowW.demandPartner = masterLabel ∧
      rowW.presentCount =
        (computePresent (get_master_lines witnessDB) (liveEmpty rowW.domain)).length ∧
      rowW.missingCount =
        (computeMissing (get_master_lines witnessDB) (liveEmpty rowW.domain)).length ∧
      rowW.presentCount + rowW.missingCount = (get_master_lines witnessDB).length) :=
  c3_present_missing_partition witnessDB [] allSentinel [strLit "d.com"] liveEmpty
    rowW (by decide)

/-!
## Claim C1 — provider selection and master fallback
-/

/-- Whether a chosen partner name contributes rows: it is mapped and its
de-duplicated line list is non-empty. -/
def partnerHasLines (st : DBState) (pname : Str) : Bool :=
  match partner_name_map_find st pname with
  | none => false
  | some pi => !(get_partner_lines st pi.1).isEmpty

theorem all_partner_names_nodup (st : DBState) : (all_partner_names st).Nodup := by
  unfold all_partner_names sortStrs
  exact ((sortBy_perm lexLe _).nodup_iff).mpr (nodup_dedupFirst _)

theorem resolveChosenNames_expand (st : DBState) (sel : List Str) (filt : Str)
    (hsel : sel = [] ∨ (sel ≠ [] ∧ ∀ p ∈ sel, p = allSentinel)) :
    resolveChosenNames st sel filt = integrationFilterNames st filt (all_partner_names st) := by
  unfold resolveChosenNames
  have hcond : (sel.contains allSentinel || sel.isEmpty) = true := by
    rcases hsel with h | ⟨hne, hall⟩
    · subst h
      rfl
    · cases sel with
      | nil => exact absurd rfl hne
      | cons a rest =>
        have ha : a = allSentinel := hall a (List.mem_cons_self a rest)
        rw [List.contains_cons, ha, beq_self_eq_true]
        rfl
  dsimp only
  rw [if_pos hcond]

theorem resolveChosenNames_nodup_of_expand {st : DBState} {sel : List Str} {filt : Str}
    (hexp : resolveChosenNames st sel filt =
      integrationFilterNames st filt (all_partner_names st)) :
    (resolveChosenNames st sel filt).Nodup := by
  rw [hexp]
  unfold integrationFilterNames
  by_cases hf : (filt == allSentinel) = true
  · rw [if_pos hf]
    exact all_partner_names_nodup st
  · rw [if_neg hf]
    exact (List.filter_sublist _).nodup (all_partner_names_nodup st)

theorem partnerRowsFor_demandPartner (st : DBState) (doms : List Str)
    (live : Str → List Str) (pname : Str) :
    ∀ r ∈ partnerRowsFor st doms live pname, r.demandPartner = pname := by
  intro r hr
  unfold partnerRowsFor at hr
  cases hfind : partner_name_map_find st pname with
  | none =>
    rw [hfind] at hr
    cases hr
  | some pi =>
    rw [hfind] at hr
    dsimp only at hr
    by_cases hemp : (get_partner_lines st pi.1).isEmpty
    · rw [if_pos hemp] at hr
      cases hr
    · rw [if_neg hemp] at hr
      rcases List.mem_map.mp hr with ⟨dom, _, hmk⟩
      subst hmk
      rfl

theorem filter_partnerRowsFor_ne (st : DBState) (doms : List Str)
    (live : Str → List Str) (dom pname q : Str) (hne : q ≠ pname) :
    (partnerRowsFor st doms live q).filter
      (fun r => r.domain == dom && r.demandPartner == pname) = [] := by
  rw [List.filter_eq_nil_iff]
  intro r hr hp
  have hq := partnerRowsFor_demandPartner st doms live q r hr
  have := (Bool.and_eq_true _ _).mp hp
  have h2 : r.demandPartner = pname := by simpa using this.2
  exact hne (hq ▸ h2)

theorem filter_joinAll_not_mem (st : DBState) (doms : List Str)
    (live : Str → List Str) (dom pname : Str) :
    ∀ L : List Str, pname ∉ L →
      ((joinAll (L.map (partnerRowsFor st doms live))).filter
        (fun r => r.domain == dom && r.demandPartner == pname)).length = 0 := by
  intro L
  induction L with
  | nil => intro _; rfl
  | cons q rest ih =>
    intro hnm
    rw [List.map_cons, joinAll_cons, List.filter_append, List.length_append]
    have hqne : q ≠ pname := fun hc => hnm (hc ▸ List.mem_cons_self q rest)
    rw [filter_partnerRowsFor_ne st doms live dom pname q hqne]
    have := ih (fun hc => hnm (List.mem_cons_of_mem q hc))
    simpa using this

theorem length_filter_beq_eq_one {dom : Str} :
    ∀ {doms : List Str}, doms.Nodup → dom ∈ doms →
      (doms.filter (fun d => d == dom)).length = 1 := by
  intro doms
  induction doms with
  | nil =>
    intro _ h
    cases h
  | cons a rest ih =>
    intro hnd hmem
    rw [List.filter_cons]
    by_cases hb : (a == dom) = true
    · have ha : a = dom := by simpa using hb
      rw [if_pos hb]
      have hnotin : dom ∉ rest := ha ▸ (List.nodup_cons.mp hnd).1
      have hrest : rest.filter (fun d => d == dom) = [] := by
        rw [List.filter_eq_nil_iff]
        intro d hd hbd
        have : d = dom := by simpa using hbd
        exact hnotin (this ▸ hd)
      rw [hrest]
      rfl
    · rw [if_neg hb]
      have ha : a ≠ dom := by simpa using hb
      rcases List.mem_cons.mp hmem with h | h
      · exact absurd h.symm ha
      · exact ih (List.nodup_cons.mp hnd).2 h

theorem filter_partnerRowsFor_self (st : DBState) (doms : List Str)
    (live : Str → List Str) (dom pname : Str) (hdoms : doms.Nodup) (hdom : dom ∈ doms) :
    ((partnerRowsFor st doms live pname).filter
      (fun r => r.domain == dom && r.demandPartner == pname)).length =
    (if partnerHasLines st pname then 1 else 0) := by
  unfold partnerRowsFor partnerHasLines
  cases hfind : partner_name_map_find st pname with
  | none =>
    rfl
  | some pi =>
    dsimp only
    by_cases hemp : (get_partner_lines st pi.1).isEmpty
    · rw [if_pos hemp, hemp]
      rfl
    · rw [if_neg hemp, Bool.eq_false_iff.mpr hemp]
      show ((doms.map (mkPartnerRow st live pname pi.1 pi.2)).filter
        (fun r => r.domain == dom && r.demandPartner == pname)).length = 1
      rw [List.filter_map]
      have hpred : ((fun r : Row => r.domain == dom && r.demandPartner == pname) ∘
          (mkPartnerRow st live pname pi.1 pi.2)) = (fun d => d == dom) := by
        funext d
        show ((d == dom) && (pname == pname)) = (d == dom)
        rw [beq_self_eq_true, Bool.and_true]
      rw [hpred, List.length_map]
      exact length_filter_beq_eq_one hdoms hdom

theorem count_pair_rows (st : DBState) (doms : List Str) (live : Str → List Str)
    (dom pname : Str) (hdoms : doms.Nodup) (hdom : dom ∈ doms) :
    ∀ L : List Str, L.Nodup → pname ∈ L →
      ((joinAll (L.map (partnerRowsFor st doms live))).filter
        (fun r => r.domain == dom && r.demandPartner == pname)).length =
      (if partnerHasLines st pname then 1 else 0) := by
  intro L
  induction L with
  | nil =>
    intro _ h
    cases h
  | cons q rest ih =>
    intro hnd hmem
    rw [List.map_cons, joinAll_cons, List.filter_append, List.length_append]
    rcases List.mem_cons.mp hmem with h | h
    · subst h
      rw [filter_partnerRowsFor_self st doms live dom pname hdoms hdom]
      have hnotin : pname ∉ rest := (List.nodup_cons.mp hnd).1
      rw [filter_joinAll_not_mem st doms live dom pname rest hnotin]
      omega
    · have hqne : q ≠ pname := by
        rintro rfl
        exact (List.nodup_cons.mp hnd).1 h
      rw [filter_partnerRowsFor_ne st doms live dom pname q hqne]
      have := ih (List.nodup_cons.mp hnd).2 h
      simpa using this

theorem rows_projection (st : DBState) (doms : List Str) (live : Str → List Str) :
    ∀ L : List Str, ∀ r ∈ joinAll (L.map (partnerRowsFor st doms live)),
      r.domain ∈ doms ∧ r.demandPartner ∈ L ∧ partnerHasLines st r.demandPartner = true := by
  intro L r hr
  rcases mem_joinAll.mp hr with ⟨rows, hrows, hrmem⟩
  rcases List.mem_map.mp hrows with ⟨q, hq, hpr⟩
  subst hpr
  unfold partnerRowsFor at hrmem
  cases hfind : partner_name_map_find st q with
  | none =>
    rw [hfind] at hrmem
    cases hrmem
  | some pi =>
    rw [hfind] at hrmem
    dsimp only at hrmem
    by_cases hemp : (get_partner_lines st pi.1).isEmpty
    · rw [if_pos hemp] at hrmem
      cases hrmem
    · rw [if_neg hemp] at hrmem
      rcases List.mem_map.mp hrmem with ⟨dom, hdom, hmk⟩
      subst hmk
      refine ⟨hdom, hq, ?_⟩
      show partnerHasLines st q = true
      unfold partnerHasLines
      rw [hfind]
      dsimp only
      rw [Bool.eq_false_iff.mpr hemp]
      rfl

/-- C1 (amended): in a reconciliation run whose chosen-partner list is empty
or consists solely of the `"(All)"` sentinel, the engine expands to every
partner name in the store filtered by the case-insensitive integration-type
match; when the expansion (after the filter) maps to no partner ids at all,
it emits exactly one master-catalog row per target domain; otherwise it emits
exactly one row per (domain × expanded partner with a non-empty expected
line list) and nothing else — partners whose expected line list is empty are
skipped without triggering the master fallback. -/
theorem c1_selection_and_fallback (st : DBState) (sel : List Str) (filt : Str)
    (doms : List Str) (live : Str → List Str)
    (hsel : sel = [] ∨ (sel ≠ [] ∧ ∀ p ∈ sel, p = allSentinel))
    (hdoms : doms.Nodup) :
    resolveChosenNames st sel filt = integrationFilterNames st filt (all_partner_names st) ∧
    (resolveChosenIds st sel filt = [] →
      validateRows st sel filt doms live = doms.map (mkMasterRow st live)) ∧
    (resolveChosenIds st sel filt ≠ [] →
      (∀ dom ∈ doms, ∀ pname ∈ resolveChosenNames st sel filt,
        ((validateRows st sel filt doms live).filter
          (fun r => r.domain == dom && r.demandPartner == pname)).length =
        (if partnerHasLines st pname then 1 else 0)) ∧
      (∀ r ∈ validateRows st sel filt doms live,
        r.domain ∈ doms ∧ r.demandPartner ∈ resolveChosenNames st sel filt ∧
        partnerHasLines st r.demandPartner = true)) := by
  have hexp := resolveChosenNames_expand st sel filt hsel
  refine ⟨hexp, ?_, ?_⟩
  · intro hids
    unfold validateRows
    rw [if_pos (List.isEmpty_iff.mpr hids)]
  · intro hids
    have hids' : (resolveChosenIds st sel filt).isEmpty = false := by
      rw [Bool.eq_false_iff]
      intro hc
      exact hids (List.isEmpty_iff.mp hc)
    constructor
    · intro dom hdom pname hpname
      unfold validateRows
      rw [hids']
      show ((joinAll ((resolveChosenNames st sel filt).map
        (partnerRowsFor st doms live))).filter
          (fun r => r.domain == dom && r.demandPartner == pname)).length = _
      exact count_pair_rows st doms live dom pname hdoms hdom _
        (resolveChosenNames_nodup_of_expand hexp) hpname
    · intro r hr
      unfold validateRows at hr
      rw [hids'] at hr
      exact rows_projection st doms live _ r hr

/-- The C1 counterexample store: one domain and one partner `"P"` whose
single line is then deleted, leaving the partner with an empty line list. -/
def c1CexDB : DBState :=
  delete_partner_lines_by_values
    (add_partner (add_domain emptyDB (strLit "d.com") []) (strLit "P") (strLit "Prebid")
      [strLit "x"])
    (strLit "P") [strLit "x"]

/-- C1 counterexample: with an empty chosen-partner list the engine expands
to the single partner `"P"`, whose expected-line list is empty, so the
expansion yields zero partners with non-empty expected lines; the claim then
requires exactly one master-fallback row for the single target domain, but
the handler emits no rows at all (its fallback triggers only when the mapped
partner-id list is empty). -/
theorem c1_counterexample :
    resolveChosenNames c1CexDB [] allSentinel = [strLit "P"] ∧
    partner_name_map_find c1CexDB (strLit "P") = some (1, strLit "Prebid") ∧
    get_partner_lines c1CexDB 1 = [] ∧
    ([strLit "d.com"] : List Str).length = 1 ∧
    validateRows c1CexDB [] allSentinel [strLit "d.com"] liveEmpty = [] := by
  refine ⟨by decide, by decide, by decide, rfl, by decide⟩

/-- Witness for the amended C1: on the witness store with full expansion, the
single (domain × partner-with-lines) pair receives exactly one row. -/
theorem c1_witness :
    ((validateRows witnessDB [] allSentinel [strLit "d.com"] liveEmpty).filter
      (fun r => r.domain == strLit "d.com" && r.demandPartner == strLit "P")).length =
    (if partnerHasLines witnessDB (strLit "P") then 1 else 0) :=
  ((c1_selection_and_fallback witnessDB [] allSentinel [strLit "d.com"] liveEmpty
      (Or.inl rfl) (by decide)).2.2 (by decide)).1 (strLit "d.com") (by decide)
    (strLit "P") (by decide)
